import Mathlib

/-
Verification of the parse-and-reconcile engine of
`Localization/Code/UpdateStrings/script.py`: the line-oriented tokenizer
`parse_strings_file_content` and the reconciliation routine
`update_strings_file_content`, embedded shallowly over `List Char`.
-/

namespace StringsUpdate

/-- Characters that Python `str.splitlines` treats as line boundaries.
This is the semantics of the `content.splitlines(True)` call in
`parse_strings_file_content` (script.py line 327). -/
def isLineBreakChar (c : Char) : Bool :=
  c == '\n' || c == '\r' || c == '\x0b' || c == '\x0c' ||
  c == '\x1c' || c == '\x1d' || c == '\x1e' || c == '\x85' ||
  c == '\u2028' || c == '\u2029'

/-- Whitespace characters of Python (`str.strip` with no argument, and the
regex class of blank characters): ASCII whitespace plus the Unicode
space/separator characters. -/
def isPySpace (c : Char) : Bool :=
  c == ' ' || c == '\t' || c == '\n' || c == '\r' || c == '\x0b' || c == '\x0c' ||
  c == '\x1c' || c == '\x1d' || c == '\x1e' || c == '\x1f' || c == '\x85' || c == '\xa0' ||
  c == '\u1680' || ('\u2000' ≤ c && c ≤ '\u200a') || c == '\u2028' || c == '\u2029' ||
  c == '\u202f' || c == '\u205f' || c == '\u3000'

/-- Helper for `splitlines`: prepend a character to the first line of a
line list (starting a new line when there is none). -/
def consHead (c : Char) : List (List Char) → List (List Char)
  | [] => [[c]]
  | l :: ls => (c :: l) :: ls

/-- Python `content.splitlines(True)` (script.py line 327): split at every
line-boundary character, keeping the boundary characters with their line;
a CR immediately followed by LF counts as a single boundary. -/
def splitlines : List Char → List (List Char)
  | [] => []
  | [c] => [[c]]
  | c :: c₂ :: rest =>
    if isLineBreakChar c then
      if c = '\r' ∧ c₂ = '\n' then (c :: c₂ :: []) :: splitlines rest
      else (c :: []) :: splitlines (c₂ :: rest)
    else consHead c (splitlines (c₂ :: rest))

/-- A matched statement line, decomposed into its spans.  `render`
reassembles the original line; the value group of the pattern is the
`value` field, so removing the value span keeps everything else. -/
structure Stmt where
  ws0 : List Char
  key : List Char
  ws1 : List Char
  ws2 : List Char
  value : List Char
  ws3 : List Char
  tail : List Char
deriving DecidableEq, Repr

/-- The full text of a matched statement line. -/
def Stmt.render (s : Stmt) : List Char :=
  s.ws0 ++ '"' :: s.key ++ '"' :: s.ws1 ++ '=' :: s.ws2 ++ '"' :: s.value ++
    '"' :: s.ws3 ++ ';' :: s.tail

/-- The statement line with the value span removed
(`line[:value_start] + line[value_end:]`, script.py line 337). -/
def Stmt.stripped (s : Stmt) : List Char :=
  s.ws0 ++ '"' :: s.key ++ '"' :: s.ws1 ++ '=' :: s.ws2 ++ '"' ::
    '"' :: s.ws3 ++ ';' :: s.tail

/-- Bool predicate: not a double-quote character. -/
def notQuote (c : Char) : Bool := decide (c ≠ '"')

/-- Modelled from the spec: the statement pattern `shared.strings_file_regex()`
(script.py line 302) lives in the `Shared` module, which is not part of these
sources.  Per the spec, a line matches when it has the shape
`"<key>" = "<value>";` optionally surrounded by whitespace: optional leading
whitespace, a double-quoted key, `=` with optional whitespace around it, a
double-quoted value, a terminating `;`, and nothing but whitespace (including
the line terminator) after it.  Group 2 of the pattern is the key, group 3
the value. -/
def matchLine (line : List Char) : Option Stmt :=
  let ws0 := line.takeWhile isPySpace
  match line.dropWhile isPySpace with
  | [] => none
  | c0 :: r1 =>
    if c0 = '"' then
      let key := r1.takeWhile notQuote
      match r1.dropWhile notQuote with
      | [] => none
      | c1 :: r2 =>
        if c1 = '"' then
          let ws1 := r2.takeWhile isPySpace
          match r2.dropWhile isPySpace with
          | [] => none
          | c2 :: r3 =>
            if c2 = '=' then
              let ws2 := r3.takeWhile isPySpace
              match r3.dropWhile isPySpace with
              | [] => none
              | c3 :: r4 =>
                if c3 = '"' then
                  let value := r4.takeWhile notQuote
                  match r4.dropWhile notQuote with
                  | [] => none
                  | c4 :: r5 =>
                    if c4 = '"' then
                      let ws3 := r5.takeWhile isPySpace
                      match r5.dropWhile isPySpace with
                      | [] => none
                      | c5 :: t =>
                        if c5 = ';' then
                          if t.all isPySpace then some ⟨ws0, key, ws1, ws2, value, ws3, t⟩
                          else none
                        else none
                    else none
                else none
            else none
        else none
    else none

/-- One parsed entry: the raw statement line for a key, and the free text
accumulated since the end of the previous entry (script.py line 341). -/
structure Entry where
  line : List Char
  comment : List Char
deriving DecidableEq, Repr

/-- The parse result: an insertion-ordered mapping key to entry, embedded as
an association list in insertion order (Python dicts preserve insertion
order; assigning to an existing key keeps its position). -/
abbrev ParsedDoc := List (List Char × Entry)

/-- The key sequence of a parse, in insertion order (`dict.keys()`). -/
def keysOf (d : ParsedDoc) : List (List Char) :=
  d.map Prod.fst

/-- Python `d[k]` / `k in d` on an insertion-ordered dict: the entry at the
first (unique) occurrence of the key. -/
def lookupD (d : ParsedDoc) (k : List Char) : Option Entry :=
  match d with
  | [] => none
  | (k', v) :: rest => if k' = k then some v else lookupD rest k

/-- Python `d[k] = v` on an insertion-ordered dict: update in place when the
key is present, append when it is new. -/
def dictSet (d : ParsedDoc) (k : List Char) (v : Entry) : ParsedDoc :=
  match d with
  | [] => [(k, v)]
  | (k', v') :: rest => if k' = k then (k, v) :: rest else (k', v') :: dictSet rest k v

/-- Python `needle in hay` on strings: contiguous-substring test. -/
def isSubOf (needle hay : List Char) : Bool :=
  hay.tails.any (fun t => needle.isPrefixOf t)

/-- The failure kinds of the engine, one per `assert` on the live path:
`trailingContent` for script.py line 349 (carrying the last seen key), and
`corruption` for the validation assert at script.py line 250. -/
inductive Err where
  | trailingContent (lastKey : List Char)
  | corruption
deriving DecidableEq, Repr

/-- The loop of `parse_strings_file_content` (script.py lines 327-346): walk
the lines; a matching line stores its key with the pending comment (stripped
of its value span when `removeValue` is set) and resets the accumulator; any
other line is appended to the pending comment.  Returns the mapping, the
leftover accumulated text, and the last matched key. -/
def parseLoop (removeValue : Bool) :
    List (List Char) → ParsedDoc → List Char → List Char →
    ParsedDoc × List Char × List Char
  | [], result, accComment, lastKey => (result, accComment, lastKey)
  | line :: rest, result, accComment, lastKey =>
    match matchLine line with
    | some st =>
      let resultLine := if removeValue then st.stripped else line
      parseLoop removeValue rest (dictSet result st.key ⟨resultLine, accComment⟩) [] st.key
    | none => parseLoop removeValue rest result (accComment ++ line) lastKey

/-- `parse_strings_file_content(content, remove_value)` (script.py lines
283-351): split into lines, run the loop, then fail when non-whitespace text
is left after the last matched key (the assert at line 349). -/
def parse_strings_file_content (content : List Char) (removeValue : Bool) :
    Except Err ParsedDoc :=
  let r := parseLoop removeValue (splitlines content) [] [] []
  if r.2.1.all isPySpace then .ok r.1 else .error (.trailingContent r.2.2)

/-- One recorded modification (script.py lines 237 and 241): an insertion
carrying the inserted comment-plus-line, or a comment change carrying the
before and after text. -/
inductive Modification where
  | insert (key : List Char) (value : List Char)
  | commentChange (key : List Char) (before after : List Char)
deriving DecidableEq, Repr

/-- The reconciliation loop of `update_strings_file_content` (script.py
lines 227-242), iterating the reference entries in order over the target
parse: insert a missing key with the reference entry verbatim, otherwise
replace the comment when it differs; the stored line of a present key is
never touched. -/
def reconcileLoop : ParsedDoc → ParsedDoc → List Modification →
    ParsedDoc × List Modification
  | [], p, mods => (p, mods)
  | (key, g) :: gens, p, mods =>
    match lookupD p key with
    | none =>
      reconcileLoop gens (dictSet p key g)
        (mods ++ [Modification.insert key (g.comment ++ g.line)])
    | some e =>
      if e.comment = g.comment then reconcileLoop gens p mods
      else
        reconcileLoop gens (dictSet p key ⟨e.line, g.comment⟩)
          (mods ++ [Modification.commentChange key e.comment g.comment])

/-- The validation of `update_strings_file_content` (script.py lines
246-250): some key of the merged document occurs verbatim inside some (not
necessarily different) key's comment.  The Python code ranges over the set
union of the target and reference key sets; after the insertion phase that
union is exactly the key set of the merged mapping, so the check is stated
over the merged mapping. -/
def hasCorruption (d : ParsedDoc) : Bool :=
  d.any (fun le => d.any (fun ke => isSubOf ke.1 le.2.comment))

/-- The reassembly loop of `update_strings_file_content` (script.py lines
268-270): concatenate comment then line of each key in the given order.
The `none` branch is unreachable: every attached key is in the mapping. -/
def attachKeys (d : ParsedDoc) : List (List Char) → List Char
  | [] => []
  | k :: ks =>
    (match lookupD d k with
     | some e => e.comment ++ e.line
     | none => []) ++ attachKeys d ks

/-- Result of a successful `update_strings_file_content` call: the new
text, the modification list, and the diagnostic key orders (script.py lines
272-279; `ordered_keys['before']` is read off the target dict after the
insertion phase has mutated it). -/
structure UpdateResult where
  newContent : List Char
  mods : List Modification
  orderBefore : List (List Char)
  orderAfter : List (List Char)
deriving DecidableEq, Repr

/-- `update_strings_file_content(content, generated_content)` (script.py
lines 209-279): parse both texts (the generated one value-stripped),
reconcile, validate, and reassemble in reference order with the superfluous
keys appended in their original relative order. -/
def update_strings_file_content (content generatedContent : List Char) :
    Except Err UpdateResult :=
  match parse_strings_file_content content false with
  | .error e => .error e
  | .ok parse0 =>
    match parse_strings_file_content generatedContent true with
    | .error e => .error e
    | .ok generatedParse =>
      match reconcileLoop generatedParse parse0 [] with
      | (d, mods) =>
        if hasCorruption d then .error .corruption
        else
          let superfluousKeys :=
            (keysOf d).filter (fun k => !(decide (k ∈ keysOf generatedParse)))
          let newKeys := keysOf generatedParse ++ superfluousKeys
          .ok ⟨attachKeys d newKeys, mods, keysOf d,
               keysOf generatedParse ++ superfluousKeys⟩

/-- Serialization of a parse in its own key order: concatenate each entry's
comment then line (the spec's Serializer contract, realized by the
reassembly loop at script.py lines 268-270 when run on the parse's own key
list). -/
def serializeDoc (d : ParsedDoc) : List Char :=
  (d.map (fun p => p.2.comment ++ p.2.line)).flatten

/-- A parse reordered along a key list: the entries of `d` picked in the
order of `ks` (used to describe the reassembled output as a document). -/
def reorder (d : ParsedDoc) (ks : List (List Char)) : ParsedDoc :=
  ks.filterMap (fun k => (lookupD d k).map (fun e => (k, e)))

/-- Does some line of the list match the statement pattern? -/
def anyMatch (ls : List (List Char)) : Bool :=
  ls.any (fun l => (matchLine l).isSome)

/-- The text accumulated after the last line that matches the statement
pattern (the whole text when no line matches). -/
def trailingOfLines : List (List Char) → List Char
  | [] => []
  | l :: rest =>
    if anyMatch rest then trailingOfLines rest
    else
      match matchLine l with
      | some _ => rest.flatten
      | none => l ++ rest.flatten

/-- The key of the last line that matches the statement pattern (the empty
string, Python's initial `last_key`, when no line matches). -/
def lastKeyOfLines : List (List Char) → List Char
  | [] => []
  | l :: rest =>
    if anyMatch rest then lastKeyOfLines rest
    else
      match matchLine l with
      | some st => st.key
      | none => []

/-- Text accumulated after the last matched statement line of a document. -/
def trailingText (content : List Char) : List Char :=
  trailingOfLines (splitlines content)

/-- The last key matched while scanning a document. -/
def lastSeenKey (content : List Char) : List Char :=
  lastKeyOfLines (splitlines content)

/-- The keys of the matching lines of a line list, in order. -/
def matchedKeysOfLines (ls : List (List Char)) : List (List Char) :=
  ls.filterMap (fun l => (matchLine l).map Stmt.key)

/-- The keys of the matching lines of a document, in scan order. -/
def matchedKeysL (content : List Char) : List (List Char) :=
  matchedKeysOfLines (splitlines content)

/-- A line as produced by splitting a text that uses `\n` as its only line
terminator: a break-free body followed by a single `\n`. -/
def SimpleLine (l : List Char) : Prop :=
  ∃ b, l = b ++ ['\n'] ∧ ∀ c ∈ b, isLineBreakChar c = false

/-- A text whose only line-boundary character is `\n` and that ends with a
newline (or is empty), so that every one of its lines is `\n`-terminated. -/
def simpleTextP (s : List Char) : Prop :=
  (∀ c ∈ s, isLineBreakChar c = true → c = '\n') ∧
    (s = [] ∨ s.getLast? = some '\n')

instance (s : List Char) : Decidable (simpleTextP s) := by
  unfold simpleTextP
  infer_instance

/-- The span side conditions that hold of every successful match. -/
def StmtWF (s : Stmt) : Prop :=
  (∀ c ∈ s.ws0, isPySpace c = true) ∧ (∀ c ∈ s.key, notQuote c = true) ∧
  (∀ c ∈ s.ws1, isPySpace c = true) ∧ (∀ c ∈ s.ws2, isPySpace c = true) ∧
  (∀ c ∈ s.value, notQuote c = true) ∧ (∀ c ∈ s.ws3, isPySpace c = true) ∧
  (∀ c ∈ s.tail, isPySpace c = true)

/-- The `Stmt` a value-stripped line matches: same spans, empty value. -/
def strippedStmt (s : Stmt) : Stmt :=
  ⟨s.ws0, s.key, s.ws1, s.ws2, [], s.ws3, s.tail⟩

/-- A comment as stored by the parser: the concatenation of non-matching
newline-terminated lines. -/
def CommentOK (c : List Char) : Prop :=
  ∃ lsc : List (List Char),
    c = lsc.flatten ∧ ∀ l ∈ lsc, matchLine l = none ∧ SimpleLine l

/-- A good stored entry: its line matches the statement pattern with its
own key and is a single newline-terminated line; its comment consists of
non-matching newline-terminated lines. -/
def GoodE (k : List Char) (e : Entry) : Prop :=
  (∃ st, matchLine e.line = some st ∧ st.key = k) ∧ SimpleLine e.line ∧
    CommentOK e.comment

/-- A good parse: pairwise-distinct keys and good entries. -/
def GoodDocP (d : ParsedDoc) : Prop :=
  (keysOf d).Nodup ∧ ∀ p ∈ d, GoodE p.1 p.2


/-- Concrete example: a document with a whitespace-only trailing line. -/
def exC1T : List Char := "\"A\" = \"1\";\n\n".toList

/-- Its parse: one entry, the trailing blank line nowhere. -/
def exC1D : ParsedDoc := [(['A'], ⟨"\"A\" = \"1\";\n".toList, []⟩)]

/-- Concrete example: a well-formed document with a comment. -/
def exC1wT : List Char := "/* c */\n\"A\" = \"1\";\n".toList

/-- Its parse. -/
def exC1wD : ParsedDoc := [(['A'], ⟨"\"A\" = \"1\";\n".toList, "/* c */\n".toList⟩)]

/-- Concrete example key for value preservation. -/
def exC2k : List Char := ['A']

/-- Concrete target entry with a manually supplied value. -/
def exC2e : Entry := ⟨"\"A\" = \"x\";\n".toList, []⟩

/-- Concrete target parse. -/
def exC2pt : ParsedDoc := [(exC2k, exC2e)]

/-- Concrete reference parse with a different comment. -/
def exC2pr : ParsedDoc := [(exC2k, ⟨"\"A\" = \"\";\n".toList, "/* n */\n".toList⟩)]

/-- Concrete target with a superfluous key before a shared key. -/
def exC3T : List Char := "\"X\" = \"x\";\n\"A\" = \"a\";\n".toList

/-- Concrete reference containing only the shared key. -/
def exC3R : List Char := "/* r */\n\"A\" = \"A\";\n".toList

/-- The update result for `exC3T`/`exC3R`. -/
def exC3r : UpdateResult :=
  ⟨"/* r */\n\"A\" = \"a\";\n\"X\" = \"x\";\n".toList,
   [Modification.commentChange ['A'] [] "/* r */\n".toList],
   [['X'], ['A']], [['A'], ['X']]⟩

/-- The parse of `exC3T`. -/
def exC3pt : ParsedDoc :=
  [(['X'], ⟨"\"X\" = \"x\";\n".toList, []⟩),
   (['A'], ⟨"\"A\" = \"a\";\n".toList, []⟩)]

/-- The value-stripped parse of `exC3R`. -/
def exC3pr : ParsedDoc := [(['A'], ⟨"\"A\" = \"\";\n".toList, "/* r */\n".toList⟩)]

/-- Concrete target whose final statement line has no line terminator. -/
def exC4T : List Char := "\"B\" = \"1\";\n\"A\" = \"x\";".toList

/-- Concrete reference listing the keys in the opposite order. -/
def exC4R : List Char := "\"A\" = \"A\";\n\"B\" = \"B\";\n".toList

/-- The (reordered) first-run result for `exC4T`/`exC4R`: the two statement
lines end up on a single physical line. -/
def exC4res : UpdateResult :=
  ⟨"\"A\" = \"x\";\"B\" = \"1\";\n".toList, [], [['B'], ['A']], [['A'], ['B']]⟩

/-- Concrete newline-terminated target for idempotence. -/
def exC4wT : List Char := "/* t */\n\"B\" = \"w\";\n".toList

/-- Concrete newline-terminated reference for idempotence. -/
def exC4wR : List Char := "/* r */\n\"A\" = \"A\";\n".toList

/-- First-run result for `exC4wT`/`exC4wR`. -/
def exC4wRes : UpdateResult :=
  ⟨"/* r */\n\"A\" = \"\";\n/* t */\n\"B\" = \"w\";\n".toList,
   [Modification.insert ['A'] "/* r */\n\"A\" = \"\";\n".toList],
   [['B'], ['A']], [['A'], ['B']]⟩

/-- Concrete target missing the reference key. -/
def exC5T : List Char := "\"B\" = \"b\";\n".toList

/-- Concrete reference with a commented key absent from the target. -/
def exC5R : List Char := "/* n */\n\"A\" = \"A\";\n".toList

/-- The parse of `exC5T`. -/
def exC5pt : ParsedDoc := [(['B'], ⟨"\"B\" = \"b\";\n".toList, []⟩)]

/-- The value-stripped parse of `exC5R`. -/
def exC5pr : ParsedDoc := [(['A'], ⟨"\"A\" = \"\";\n".toList, "/* n */\n".toList⟩)]

/-- The reference entry inserted for the missing key. -/
def exC5g : Entry := ⟨"\"A\" = \"\";\n".toList, "/* n */\n".toList⟩

/-- Concrete document with non-whitespace text after the last statement. -/
def exC6T : List Char := "\"A\" = \"1\";\ngarbage\n".toList

/-- Concrete target whose first comment contains the other key's text. -/
def exC7T : List Char := "/* B */\n\"A\" = \"1\";\n\"B\" = \"2\";\n".toList

/-- Entry of key A in `exC7T`: its comment contains the text `B`. -/
def exC7eA : Entry := ⟨"\"A\" = \"1\";\n".toList, "/* B */\n".toList⟩

/-- Entry of key B in `exC7T`. -/
def exC7eB : Entry := ⟨"\"B\" = \"2\";\n".toList, []⟩

/-- The parse of `exC7T`. -/
def exC7pt : ParsedDoc := [(['A'], exC7eA), (['B'], exC7eB)]

/-- Concrete document declaring the same key twice. -/
def exC8T : List Char := "\"A\" = \"1\";\n\"A\" = \"2\";\n".toList

/-- What the parser returns for it: one entry, the last line, no error. -/
def exC8D : ParsedDoc := [(['A'], ⟨"\"A\" = \"2\";\n".toList, []⟩)]

/-- Concrete well-formed statement whose value contains U+2028 LINE
SEPARATOR (not the document's line terminator). -/
def exC9T : List Char := "\"A\" = \"x\u2028y\";\n".toList

/-- Concrete target whose only comment contains its own key's text. -/
def exC10T : List Char := "/* A */\n\"A\" = \"1\";\n".toList

/-- The single entry of `exC10T`. -/
def exC10e : Entry := ⟨"\"A\" = \"1\";\n".toList, "/* A */\n".toList⟩

/-- The parse of `exC10T`. -/
def exC10pt : ParsedDoc := [(['A'], exC10e)]

theorem consHead_ne_nil (c : Char) (ls : List (List Char)) : consHead c ls ≠ [] := by
  cases ls <;> simp [consHead]

theorem consHead_flatten (c : Char) (ls : List (List Char)) :
    (consHead c ls).flatten = c :: ls.flatten := by
  cases ls <;> simp [consHead]

theorem consHead_append (c : Char) (X Y : List (List Char)) (h : X ≠ []) :
    consHead c (X ++ Y) = consHead c X ++ Y := by
  cases X with
  | nil => exact absurd rfl h
  | cons l ls => simp [consHead]

theorem splitlines_ne_nil : ∀ s : List Char, s ≠ [] → splitlines s ≠ [] := by
  intro s hs
  match s, hs with
  | [c], _ => simp [splitlines]
  | c :: c₂ :: rest, _ =>
    simp only [splitlines]
    split_ifs <;> simp [consHead_ne_nil]

theorem flatten_splitlines : ∀ s : List Char, (splitlines s).flatten = s := by
  intro s
  induction s using splitlines.induct with
  | case1 => rfl
  | case2 c => rfl
  | case3 c c₂ rest h1 h2 ih =>
    obtain ⟨rfl, rfl⟩ := h2
    simp [splitlines, h1, ih]
  | case4 c c₂ rest h1 h2 ih =>
    simp [splitlines, h1, h2, ih]
  | case5 c c₂ rest h1 ih =>
    simp [splitlines, h1, consHead_flatten, ih]

theorem splitlines_cons_cons (c c₂ : Char) (rest : List Char) :
    splitlines (c :: c₂ :: rest) =
      if isLineBreakChar c then
        if c = '\r' ∧ c₂ = '\n' then (c :: c₂ :: []) :: splitlines rest
        else (c :: []) :: splitlines (c₂ :: rest)
      else consHead c (splitlines (c₂ :: rest)) := by
  simp only [splitlines]

theorem splitlines_append :
    ∀ s : List Char, s.getLast? = some '\n' →
      ∀ t, splitlines (s ++ t) = splitlines s ++ splitlines t := by
  intro s
  induction s using splitlines.induct with
  | case1 => intro h; simp at h
  | case2 c =>
    intro h t
    have hc : c = '\n' := by simpa using h
    subst hc
    cases t with
    | nil => simp [splitlines]
    | cons c₃ t₃ =>
      simp only [List.cons_append, List.nil_append]
      rw [splitlines_cons_cons]
      rw [if_pos (by decide : isLineBreakChar '\n' = true)]
      rw [if_neg (fun h => absurd h.1 (by decide))]
      simp [splitlines]
  | case3 c c₂ rest h1 h2 ih =>
    intro hl t
    obtain ⟨rfl, rfl⟩ := h2
    simp only [List.cons_append]
    rw [splitlines_cons_cons '\r' '\n' (rest ++ t), splitlines_cons_cons '\r' '\n' rest]
    rw [if_pos h1, if_pos h1]
    rw [if_pos (⟨rfl, rfl⟩ : '\r' = '\r' ∧ '\n' = '\n'),
        if_pos (⟨rfl, rfl⟩ : '\r' = '\r' ∧ '\n' = '\n')]
    cases rest with
    | nil => simp [splitlines]
    | cons r rs =>
      have hl' : (r :: rs).getLast? = some '\n' := by
        simpa [List.getLast?_cons_cons] using hl
      have step := ih hl' t
      simp only [List.cons_append] at step
      simp [step]
  | case4 c c₂ rest h1 h2 ih =>
    intro hl t
    have hl' : (c₂ :: rest).getLast? = some '\n' := by
      simpa [List.getLast?_cons_cons] using hl
    have step := ih hl' t
    simp only [List.cons_append] at step ⊢
    rw [splitlines_cons_cons c c₂ (rest ++ t), splitlines_cons_cons c c₂ rest]
    rw [if_pos h1, if_pos h1, if_neg h2, if_neg h2]
    simp [step]
  | case5 c c₂ rest h1 ih =>
    intro hl t
    have hl' : (c₂ :: rest).getLast? = some '\n' := by
      simpa [List.getLast?_cons_cons] using hl
    have step := ih hl' t
    have hne : splitlines (c₂ :: rest) ≠ [] := splitlines_ne_nil _ (by simp)
    simp only [List.cons_append] at step ⊢
    rw [splitlines_cons_cons c c₂ (rest ++ t), splitlines_cons_cons c c₂ rest]
    rw [if_neg h1, if_neg h1]
    rw [step, consHead_append c _ _ hne]

theorem simpleLine_getLast (l : List Char) (h : SimpleLine l) :
    l.getLast? = some '\n' := by
  obtain ⟨b, rfl, _⟩ := h
  rw [List.getLast?_append]
  rfl

theorem simpleLine_ne_nil (l : List Char) (h : SimpleLine l) : l ≠ [] := by
  obtain ⟨b, rfl, _⟩ := h
  simp

theorem splitlines_simpleLine (l : List Char) (h : SimpleLine l) :
    splitlines l = [l] := by
  obtain ⟨b, rfl, hb⟩ := h
  induction b with
  | nil => rfl
  | cons c b ih =>
    have hc : isLineBreakChar c = false := hb c (by simp)
    have ih' := ih (fun x hx => hb x (by simp [hx]))
    cases b with
    | nil =>
      show splitlines (c :: '\n' :: []) = [c :: '\n' :: []]
      rw [splitlines_cons_cons, if_neg (by simp [hc])]
      simp [splitlines, consHead]
    | cons c₂ b₂ =>
      simp only [List.cons_append] at ih' ⊢
      rw [splitlines_cons_cons, if_neg (by simp [hc]), ih']
      simp [consHead]

theorem splitlines_flatten_simple :
    ∀ lsc : List (List Char), (∀ l ∈ lsc, SimpleLine l) →
      ∀ t, splitlines (lsc.flatten ++ t) = lsc ++ splitlines t := by
  intro lsc
  induction lsc with
  | nil => intro _ t; simp
  | cons l ls ih =>
    intro h t
    have hl := h l (by simp)
    rw [List.flatten_cons, List.append_assoc,
        splitlines_append l (simpleLine_getLast l hl) (ls.flatten ++ t),
        splitlines_simpleLine l hl,
        ih (fun x hx => h x (by simp [hx])) t]
    simp

theorem splitlines_flatten_simple_nil (lsc : List (List Char))
    (h : ∀ l ∈ lsc, SimpleLine l) : splitlines lsc.flatten = lsc := by
  have := splitlines_flatten_simple lsc h []
  simpa [splitlines] using this

theorem simpleText_lines :
    ∀ s : List Char, simpleTextP s → ∀ l ∈ splitlines s, SimpleLine l := by
  intro s
  induction s using splitlines.induct with
  | case1 => intro _ l hl; simp [splitlines] at hl
  | case2 c =>
    intro hs l hl
    have hc : c = '\n' := by
      rcases hs.2 with h | h
      · simp at h
      · simpa using h
    subst hc
    simp [splitlines] at hl
    subst hl
    exact ⟨[], rfl, by simp⟩
  | case3 c c₂ rest h1 h2 ih =>
    intro hs
    obtain ⟨rfl, rfl⟩ := h2
    have : ('\r' : Char) = '\n' := hs.1 '\r' (by simp) h1
    exact absurd this (by decide)
  | case4 c c₂ rest h1 h2 ih =>
    intro hs l hl
    have hc : c = '\n' := hs.1 c (by simp) h1
    subst hc
    rw [splitlines_cons_cons, if_pos h1, if_neg h2] at hl
    simp at hl
    rcases hl with rfl | hl
    · exact ⟨[], rfl, by simp⟩
    · apply ih _ l hl
      refine ⟨fun x hx hbx => hs.1 x (by simp [hx]) hbx, Or.inr ?_⟩
      have h2' : ('\n' :: c₂ :: rest).getLast? = some '\n' := by
        rcases hs.2 with h | h
        · simp at h
        · exact h
      simpa [List.getLast?_cons_cons] using h2'
  | case5 c c₂ rest h1 ih =>
    intro hs l hl
    have hrec : ∀ x ∈ splitlines (c₂ :: rest), SimpleLine x := by
      apply ih
      refine ⟨fun x hx hbx => hs.1 x (by simp [hx]) hbx, Or.inr ?_⟩
      rcases hs.2 with h | h
      · simp at h
      · simpa [List.getLast?_cons_cons] using h
    rw [splitlines_cons_cons, if_neg h1] at hl
    obtain ⟨l₀, ls₀, he⟩ : ∃ l₀ ls₀, splitlines (c₂ :: rest) = l₀ :: ls₀ := by
      cases hsp : splitlines (c₂ :: rest) with
      | nil => exact absurd hsp (splitlines_ne_nil _ (by simp))
      | cons a b => exact ⟨a, b, rfl⟩
    rw [he] at hl
    simp [consHead] at hl
    rcases hl with rfl | hl
    · have hs₀ : SimpleLine l₀ := hrec l₀ (by simp [he])
      obtain ⟨b, rfl, hb⟩ := hs₀
      refine ⟨c :: b, by simp, ?_⟩
      intro x hx
      rcases (by simpa using hx : x = c ∨ x ∈ b) with rfl | hx'
      · simpa using h1
      · exact hb x hx'
    · exact hrec l (by simp [he, hl])

theorem span_exact (p : Char → Bool) (A : List Char) (c : Char) (B : List Char)
    (hA : ∀ a ∈ A, p a = true) (hc : p c = false) :
    (A ++ c :: B).takeWhile p = A ∧ (A ++ c :: B).dropWhile p = c :: B := by
  induction A with
  | nil => simp [List.takeWhile_cons, List.dropWhile_cons, hc]
  | cons a A ih =>
    have ha : p a = true := hA a (by simp)
    have ih' := ih (fun x hx => hA x (by simp [hx]))
    simp [List.takeWhile_cons, List.dropWhile_cons, ha, ih'.1, ih'.2]

theorem matchLine_sound (line : List Char) (st : Stmt)
    (h : matchLine line = some st) : st.render = line ∧ StmtWF st := by
  simp only [matchLine] at h
  split at h
  · exact absurd h (by simp)
  · rename_i c0 r1 heq0
    split at h
    swap
    · exact absurd h (by simp)
    rename_i hc0
    subst hc0
    split at h
    · exact absurd h (by simp)
    · rename_i c1 r2 heq1
      split at h
      swap
      · exact absurd h (by simp)
      rename_i hc1
      subst hc1
      split at h
      · exact absurd h (by simp)
      · rename_i c2 r3 heq2
        split at h
        swap
        · exact absurd h (by simp)
        rename_i hc2
        subst hc2
        split at h
        · exact absurd h (by simp)
        · rename_i c3 r4 heq3
          split at h
          swap
          · exact absurd h (by simp)
          rename_i hc3
          subst hc3
          split at h
          · exact absurd h (by simp)
          · rename_i c4 r5 heq4
            split at h
            swap
            · exact absurd h (by simp)
            rename_i hc4
            subst hc4
            split at h
            · exact absurd h (by simp)
            · rename_i c5 t heq5
              split at h
              swap
              · exact absurd h (by simp)
              rename_i hc5
              subst hc5
              split at h
              swap
              · exact absurd h (by simp)
              rename_i hall
              injection h with h
              subst h
              constructor
              · have e0 := List.takeWhile_append_dropWhile isPySpace line
                have e1 := List.takeWhile_append_dropWhile notQuote r1
                have e2 := List.takeWhile_append_dropWhile isPySpace r2
                have e3 := List.takeWhile_append_dropWhile isPySpace r3
                have e4 := List.takeWhile_append_dropWhile notQuote r4
                have e5 := List.takeWhile_append_dropWhile isPySpace r5
                rw [heq0] at e0
                rw [heq1] at e1
                rw [heq2] at e2
                rw [heq3] at e3
                rw [heq4] at e4
                rw [heq5] at e5
                show _ = line
                simp only [Stmt.render, List.append_assoc, List.cons_append]
                rw [e5, e4, e3, e2, e1, e0]
              · refine ⟨?_, ?_, ?_, ?_, ?_, ?_, ?_⟩ <;>
                  first
                  | (intro x hx; exact List.mem_takeWhile_imp hx)
                  | (intro x hx; exact List.all_eq_true.mp hall x hx)

theorem matchLine_of_wf (st : Stmt) (hwf : StmtWF st) :
    matchLine st.render = some st := by
  obtain ⟨h0, hk, h1, h2, hv, h3, ht⟩ := hwf
  have s0 := span_exact isPySpace st.ws0 '"'
    (st.key ++ '"' :: (st.ws1 ++ '=' :: (st.ws2 ++ '"' ::
      (st.value ++ '"' :: (st.ws3 ++ ';' :: st.tail))))) h0 (by decide)
  have s1 := span_exact notQuote st.key '"'
    (st.ws1 ++ '=' :: (st.ws2 ++ '"' :: (st.value ++ '"' ::
      (st.ws3 ++ ';' :: st.tail)))) hk (by decide)
  have s2 := span_exact isPySpace st.ws1 '='
    (st.ws2 ++ '"' :: (st.value ++ '"' :: (st.ws3 ++ ';' :: st.tail))) h1 (by decide)
  have s3 := span_exact isPySpace st.ws2 '"'
    (st.value ++ '"' :: (st.ws3 ++ ';' :: st.tail)) h2 (by decide)
  have s4 := span_exact notQuote st.value '"' (st.ws3 ++ ';' :: st.tail) hv (by decide)
  have s5 := span_exact isPySpace st.ws3 ';' st.tail h3 (by decide)
  have hr : st.render = st.ws0 ++ '"' :: (st.key ++ '"' :: (st.ws1 ++ '=' ::
      (st.ws2 ++ '"' :: (st.value ++ '"' :: (st.ws3 ++ ';' :: st.tail))))) := by
    simp [Stmt.render, List.append_assoc]
  rw [matchLine, hr]
  rw [s0.1, s0.2]
  simp only [if_pos rfl]
  rw [s1.1, s1.2]
  simp only [if_pos rfl]
  rw [s2.1, s2.2]
  simp only [if_pos rfl]
  rw [s3.1, s3.2]
  simp only [if_pos rfl]
  rw [s4.1, s4.2]
  simp only [if_pos rfl]
  rw [s5.1, s5.2]
  simp only [if_pos rfl]
  rw [if_pos (List.all_eq_true.mpr ht)]
  simp

theorem stripped_eq_render (s : Stmt) : s.stripped = (strippedStmt s).render := by
  simp [Stmt.stripped, strippedStmt, Stmt.render]

theorem strippedStmt_wf (s : Stmt) (h : StmtWF s) : StmtWF (strippedStmt s) := by
  obtain ⟨h0, hk, h1, h2, hv, h3, ht⟩ := h
  exact ⟨h0, hk, h1, h2, by simp [strippedStmt], h3, ht⟩

theorem matchLine_stripped (line : List Char) (st : Stmt)
    (h : matchLine line = some st) :
    matchLine st.stripped = some (strippedStmt st) := by
  have hs := matchLine_sound line st h
  rw [stripped_eq_render]
  exact matchLine_of_wf _ (strippedStmt_wf _ hs.2)

theorem append_simple (X v Y : List Char) (hY : Y ≠ [])
    (h : SimpleLine (X ++ (v ++ Y))) : SimpleLine (X ++ Y) := by
  obtain ⟨b, hb, hfree⟩ := h
  have hYl : Y.getLast? = some '\n' := by
    have h1 : (X ++ (v ++ Y)).getLast? = some '\n' := by
      rw [hb]; exact List.getLast?_concat b
    simpa [List.getLast?_append, List.getLast?_eq_none_iff, hY] using h1
  obtain ⟨Y', rfl⟩ : ∃ Y', Y = Y' ++ ['\n'] :=
    ⟨Y.dropLast, (List.dropLast_append_getLast? '\n' hYl).symm⟩
  have hb' : X ++ (v ++ Y') = b := by
    have hb2 : (X ++ (v ++ Y')) ++ ['\n'] = b ++ ['\n'] := by
      simpa [List.append_assoc] using hb
    exact List.append_cancel_right hb2
  refine ⟨X ++ Y', by simp [List.append_assoc], ?_⟩
  intro c hc
  apply hfree
  rw [← hb']
  rcases List.mem_append.mp hc with h | h
  · exact List.mem_append.mpr (Or.inl h)
  · exact List.mem_append.mpr (Or.inr (List.mem_append.mpr (Or.inr h)))

theorem simpleLine_stripped (st : Stmt) (h : SimpleLine st.render) :
    SimpleLine st.stripped := by
  have hR : st.render =
      (st.ws0 ++ '"' :: (st.key ++ '"' :: (st.ws1 ++ '=' :: (st.ws2 ++ ['"'])))) ++
        (st.value ++ ('"' :: (st.ws3 ++ ';' :: st.tail))) := by
    simp [Stmt.render, List.append_assoc]
  have hS : st.stripped =
      (st.ws0 ++ '"' :: (st.key ++ '"' :: (st.ws1 ++ '=' :: (st.ws2 ++ ['"'])))) ++
        ('"' :: (st.ws3 ++ ';' :: st.tail)) := by
    simp [Stmt.stripped, List.append_assoc]
  rw [hS]
  exact append_simple _ _ _ (by simp) (by rw [← hR]; exact h)

instance : Inhabited Entry := ⟨⟨[], []⟩⟩

instance : Nonempty Entry := ⟨⟨[], []⟩⟩

instance : Nonempty (List Char × Entry) := ⟨([], ⟨[], []⟩)⟩

theorem lookupD_eq_none (d : ParsedDoc) (k : List Char) :
    lookupD d k = none ↔ k ∉ keysOf d := by
  induction d with
  | nil => simp [lookupD, keysOf]
  | cons p rest ih =>
    obtain ⟨k', v⟩ := p
    by_cases h : k' = k
    · subst h; simp [lookupD, keysOf]
    · simp [lookupD, keysOf, h, Ne.symm h] at ih ⊢
      simpa [keysOf] using ih

theorem lookupD_mem (d : ParsedDoc) (k : List Char) (e : Entry)
    (h : lookupD d k = some e) : (k, e) ∈ d := by
  induction d with
  | nil => simp [lookupD] at h
  | cons p rest ih =>
    obtain ⟨k', v⟩ := p
    by_cases hk : k' = k
    · subst hk
      simp [lookupD] at h
      simp [h]
    · simp [lookupD, hk] at h
      simp [ih h]

theorem lookupD_of_mem_nodup (d : ParsedDoc) (k : List Char) (e : Entry)
    (hn : (keysOf d).Nodup) (h : (k, e) ∈ d) : lookupD d k = some e := by
  induction d with
  | nil => simp at h
  | cons p rest ih =>
    obtain ⟨k', v⟩ := p
    rw [keysOf, List.map_cons, List.nodup_cons] at hn
    rcases List.mem_cons.mp h with h1 | h1
    · injection h1.symm with e1 e2
      subst e1
      subst e2
      simp [lookupD]
    · have hk : k' ≠ k := by
        intro hkk
        subst hkk
        exact hn.1 (List.mem_map.mpr ⟨(k', e), h1, rfl⟩)
      simp only [lookupD, if_neg hk]
      exact ih hn.2 h1

theorem keysOf_dictSet_mem (d : ParsedDoc) (k : List Char) (v : Entry)
    (h : k ∈ keysOf d) : keysOf (dictSet d k v) = keysOf d := by
  induction d with
  | nil => simp [keysOf] at h
  | cons p rest ih =>
    obtain ⟨k', v'⟩ := p
    by_cases hk : k' = k
    · subst hk; simp [dictSet, keysOf]
    · simp [keysOf, hk] at h
      rcases h with h | h
      · exact absurd h.symm hk
      · simp [dictSet, hk, keysOf]
        exact ih (by simpa [keysOf] using h)

theorem dictSet_of_not_mem (d : ParsedDoc) (k : List Char) (v : Entry)
    (h : k ∉ keysOf d) : dictSet d k v = d ++ [(k, v)] := by
  induction d with
  | nil => simp [dictSet]
  | cons p rest ih =>
    obtain ⟨k', v'⟩ := p
    simp [keysOf] at h
    have hk : k' ≠ k := fun hkk => h.1 hkk.symm
    simp [dictSet, hk]
    exact ih (by simpa [keysOf] using h.2)

theorem lookupD_dictSet_self (d : ParsedDoc) (k : List Char) (v : Entry) :
    lookupD (dictSet d k v) k = some v := by
  induction d with
  | nil => simp [dictSet, lookupD]
  | cons p rest ih =>
    obtain ⟨k', v'⟩ := p
    by_cases hk : k' = k
    · subst hk; simp [dictSet, lookupD]
    · simp [dictSet, lookupD, hk, ih]

theorem lookupD_dictSet_ne (d : ParsedDoc) (k j : List Char) (v : Entry)
    (h : j ≠ k) : lookupD (dictSet d k v) j = lookupD d j := by
  have hkj : k ≠ j := fun hh => h hh.symm
  induction d with
  | nil => simp [dictSet, lookupD, hkj]
  | cons p rest ih =>
    obtain ⟨k', v'⟩ := p
    by_cases hk : k' = k
    · subst hk
      simp [dictSet, lookupD, hkj]
    · by_cases hj : k' = j <;> simp [dictSet, lookupD, hk, hj, h, ih]

theorem mem_dictSet (d : ParsedDoc) (k : List Char) (v : Entry) (x : List Char × Entry)
    (h : x ∈ dictSet d k v) : x ∈ d ∨ x = (k, v) := by
  induction d with
  | nil => simp [dictSet] at h; simp [h]
  | cons p rest ih =>
    obtain ⟨k', v'⟩ := p
    by_cases hk : k' = k
    · subst hk
      simp [dictSet] at h
      rcases h with h | h
      · exact Or.inr h
      · exact Or.inl (by simp [h])
    · simp [dictSet, hk] at h
      rcases h with h | h
      · exact Or.inl (by simp [h])
      · rcases ih h with h1 | h1
        · exact Or.inl (by simp [h1])
        · exact Or.inr h1

theorem nodup_keys_dictSet (d : ParsedDoc) (k : List Char) (v : Entry)
    (h : (keysOf d).Nodup) : (keysOf (dictSet d k v)).Nodup := by
  by_cases hm : k ∈ keysOf d
  · rw [keysOf_dictSet_mem d k v hm]; exact h
  · rw [dictSet_of_not_mem d k v hm]
    simp [keysOf]
    exact List.Nodup.append h (by simp) (by
      intro x hx hx2
      simp at hx2
      subst hx2
      exact hm (by simpa [keysOf] using hx))

theorem lookupD_append_of_none (d d₂ : ParsedDoc) (k : List Char)
    (h : lookupD d k = none) : lookupD (d ++ d₂) k = lookupD d₂ k := by
  induction d with
  | nil => simp
  | cons p rest ih =>
    obtain ⟨k', v⟩ := p
    by_cases hk : k' = k
    · subst hk; simp [lookupD] at h
    · simp [lookupD, hk] at h ⊢
      exact ih h

theorem lookupD_append_of_some (d d₂ : ParsedDoc) (k : List Char) (e : Entry)
    (h : lookupD d k = some e) : lookupD (d ++ d₂) k = some e := by
  induction d with
  | nil => simp [lookupD] at h
  | cons p rest ih =>
    obtain ⟨k', v⟩ := p
    by_cases hk : k' = k
    · subst hk; simp [lookupD] at h ⊢; exact h
    · simp [lookupD, hk] at h ⊢
      exact ih h

theorem mem_keysOf_of_lookupD (d : ParsedDoc) (k : List Char) (e : Entry)
    (h : lookupD d k = some e) : k ∈ keysOf d :=
  List.mem_map.mpr ⟨(k, e), lookupD_mem d k e h, rfl⟩

theorem reconcileLoop_cons_none (key : List Char) (ge : Entry)
    (gens p : ParsedDoc) (mods : List Modification)
    (hl : lookupD p key = none) :
    reconcileLoop ((key, ge) :: gens) p mods =
      reconcileLoop gens (dictSet p key ge)
        (mods ++ [Modification.insert key (ge.comment ++ ge.line)]) := by
  simp only [reconcileLoop, hl]

theorem reconcileLoop_cons_some (key : List Char) (ge e : Entry)
    (gens p : ParsedDoc) (mods : List Modification)
    (hl : lookupD p key = some e) :
    reconcileLoop ((key, ge) :: gens) p mods =
      if e.comment = ge.comment then reconcileLoop gens p mods
      else reconcileLoop gens (dictSet p key ⟨e.line, ge.comment⟩)
        (mods ++ [Modification.commentChange key e.comment ge.comment]) := by
  simp only [reconcileLoop, hl]

theorem reconcileLoop_mods_mono :
    ∀ (gens p : ParsedDoc) (mods : List Modification),
      ∃ extra, (reconcileLoop gens p mods).2 = mods ++ extra := by
  intro gens
  induction gens with
  | nil => exact fun p mods => ⟨[], by simp [reconcileLoop]⟩
  | cons g gens ih =>
    intro p mods
    obtain ⟨key, ge⟩ := g
    simp only [reconcileLoop]
    cases hl : lookupD p key with
    | none =>
      obtain ⟨extra, he⟩ := ih (dictSet p key ge)
        (mods ++ [Modification.insert key (ge.comment ++ ge.line)])
      exact ⟨[Modification.insert key (ge.comment ++ ge.line)] ++ extra,
        by simp [he, List.append_assoc]⟩
    | some e =>
      by_cases hc : e.comment = ge.comment
      · obtain ⟨extra, he⟩ := ih p mods
        exact ⟨extra, by simp [hc, he]⟩
      · obtain ⟨extra, he⟩ := ih (dictSet p key ⟨e.line, ge.comment⟩)
          (mods ++ [Modification.commentChange key e.comment ge.comment])
        exact ⟨[Modification.commentChange key e.comment ge.comment] ++ extra,
          by simp [hc, he, List.append_assoc]⟩

theorem reconcileLoop_lookup_not_mem :
    ∀ (gens p : ParsedDoc) (mods : List Modification) (k : List Char),
      k ∉ keysOf gens →
      lookupD (reconcileLoop gens p mods).1 k = lookupD p k := by
  intro gens
  induction gens with
  | nil => intro p mods k _; rfl
  | cons g gens ih =>
    intro p mods k hk
    obtain ⟨key, ge⟩ := g
    have hk1 : k ≠ key := by
      intro h; exact hk (by simp [keysOf, h])
    have hk2 : k ∉ keysOf gens := by
      intro h; exact hk (by simp [keysOf] at h ⊢; exact Or.inr h)
    simp only [reconcileLoop]
    cases hl : lookupD p key with
    | none => rw [ih _ _ k hk2, lookupD_dictSet_ne p key k ge hk1]
    | some e =>
      by_cases hc : e.comment = ge.comment
      · simp only [hc, if_pos rfl]
        exact ih _ _ k hk2
      · simp only [if_neg hc]
        rw [ih _ _ k hk2, lookupD_dictSet_ne p key k ⟨e.line, ge.comment⟩ hk1]

theorem reconcileLoop_line :
    ∀ (gens p : ParsedDoc) (mods : List Modification) (k : List Char) (e : Entry),
      lookupD p k = some e →
      ∃ e₂, lookupD (reconcileLoop gens p mods).1 k = some e₂ ∧
        e₂.line = e.line := by
  intro gens
  induction gens with
  | nil => exact fun p mods k e h => ⟨e, h, rfl⟩
  | cons g gens ih =>
    intro p mods k e h
    obtain ⟨key, ge⟩ := g
    simp only [reconcileLoop]
    cases hl : lookupD p key with
    | none =>
      have hk : k ≠ key := by
        intro hkk; subst hkk; rw [h] at hl; exact Option.noConfusion hl
      exact ih _ _ k e (by rw [lookupD_dictSet_ne p key k ge hk]; exact h)
    | some e₀ =>
      by_cases hc : e₀.comment = ge.comment
      · simp only [hc, if_pos rfl]
        exact ih _ _ k e h
      · simp only [if_neg hc]
        by_cases hk : k = key
        · subst hk
          have he : e₀ = e := by rw [h] at hl; exact (Option.some.inj hl).symm
          subst he
          exact ih _ _ k ⟨e₀.line, ge.comment⟩
            (lookupD_dictSet_self p k ⟨e₀.line, ge.comment⟩)
        · exact ih _ _ k e
            (by rw [lookupD_dictSet_ne p key k ⟨e₀.line, ge.comment⟩ hk]; exact h)

theorem reconcileLoop_keys :
    ∀ (gens p : ParsedDoc) (mods : List Modification),
      ∃ app, keysOf (reconcileLoop gens p mods).1 = keysOf p ++ app ∧
        ∀ k ∈ app, k ∈ keysOf gens := by
  intro gens
  induction gens with
  | nil => exact fun p mods => ⟨[], by simp [reconcileLoop], by simp⟩
  | cons g gens ih =>
    intro p mods
    obtain ⟨key, ge⟩ := g
    simp only [reconcileLoop]
    cases hl : lookupD p key with
    | none =>
      obtain ⟨app, ha, hm⟩ := ih (dictSet p key ge)
        (mods ++ [Modification.insert key (ge.comment ++ ge.line)])
      have hnm : key ∉ keysOf p := (lookupD_eq_none p key).mp hl
      refine ⟨key :: app, ?_, ?_⟩
      · rw [ha, dictSet_of_not_mem p key ge hnm, keysOf, List.map_append]
        simp [keysOf]
      · intro k hk
        rw [keysOf, List.map_cons]
        rcases List.mem_cons.mp hk with rfl | hk
        · exact List.mem_cons.mpr (Or.inl rfl)
        · exact List.mem_cons.mpr (Or.inr (hm k hk))
    | some e =>
      by_cases hc : e.comment = ge.comment
      · simp only [hc, if_pos rfl]
        obtain ⟨app, ha, hm⟩ := ih p mods
        refine ⟨app, ha, fun k hk => ?_⟩
        rw [keysOf, List.map_cons]
        exact List.mem_cons.mpr (Or.inr (hm k hk))
      · simp only [if_neg hc]
        obtain ⟨app, ha, hm⟩ := ih (dictSet p key ⟨e.line, ge.comment⟩)
          (mods ++ [Modification.commentChange key e.comment ge.comment])
        have hmem : key ∈ keysOf p := mem_keysOf_of_lookupD p key e hl
        refine ⟨app, ?_, fun k hk => ?_⟩
        · rw [ha, keysOf_dictSet_mem p key ⟨e.line, ge.comment⟩ hmem]
        · rw [keysOf, List.map_cons]
          exact List.mem_cons.mpr (Or.inr (hm k hk))

theorem reconcileLoop_insert :
    ∀ (gens p : ParsedDoc) (mods : List Modification) (k : List Char) (g : Entry),
      (keysOf gens).Nodup → lookupD p k = none → lookupD gens k = some g →
      lookupD (reconcileLoop gens p mods).1 k = some g ∧
        Modification.insert k (g.comment ++ g.line) ∈ (reconcileLoop gens p mods).2 := by
  intro gens
  induction gens with
  | nil => intro p mods k g _ _ hg; simp [lookupD] at hg
  | cons g0 gens ih =>
    intro p mods k g hn hp hg
    obtain ⟨key, ge⟩ := g0
    rw [keysOf, List.map_cons, List.nodup_cons] at hn
    by_cases hk : key = k
    · subst hk
      have hge : ge = g := by
        simpa [lookupD] using hg
      subst hge
      simp only [reconcileLoop, hp]
      constructor
      · rw [reconcileLoop_lookup_not_mem gens _ _ key hn.1,
          lookupD_dictSet_self p key ge]
      · obtain ⟨extra, he⟩ := reconcileLoop_mods_mono gens (dictSet p key ge)
          (mods ++ [Modification.insert key (ge.comment ++ ge.line)])
        rw [he]
        simp
    · have hg' : lookupD gens k = some g := by
        simpa [lookupD, hk] using hg
      simp only [reconcileLoop]
      cases hl : lookupD p key with
      | none =>
        have hp' : lookupD (dictSet p key ge) k = none := by
          rw [lookupD_dictSet_ne p key k ge (fun h => hk h.symm)]; exact hp
        exact ih _ _ k g hn.2 hp' hg'
      | some e =>
        by_cases hc : e.comment = ge.comment
        · simp only [hc, if_pos rfl]
          exact ih _ _ k g hn.2 hp hg'
        · simp only [if_neg hc]
          have hp' : lookupD (dictSet p key ⟨e.line, ge.comment⟩) k = none := by
            rw [lookupD_dictSet_ne p key k ⟨e.line, ge.comment⟩ (fun h => hk h.symm)]
            exact hp
          exact ih _ _ k g hn.2 hp' hg'

theorem reconcileLoop_comment :
    ∀ (gens p : ParsedDoc) (mods : List Modification) (k : List Char) (g : Entry),
      (keysOf gens).Nodup → lookupD gens k = some g →
      ∃ e, lookupD (reconcileLoop gens p mods).1 k = some e ∧
        e.comment = g.comment := by
  intro gens
  induction gens with
  | nil => intro p mods k g _ hg; simp [lookupD] at hg
  | cons g0 gens ih =>
    intro p mods k g hn hg
    obtain ⟨key, ge⟩ := g0
    rw [keysOf, List.map_cons, List.nodup_cons] at hn
    by_cases hk : key = k
    · subst hk
      have hge : ge = g := by simpa [lookupD] using hg
      subst hge
      cases hl : lookupD p key with
      | none =>
        refine ⟨ge, ?_, rfl⟩
        rw [reconcileLoop_cons_none key ge gens p mods hl,
          reconcileLoop_lookup_not_mem gens _ _ key hn.1,
          lookupD_dictSet_self p key ge]
      | some e =>
        rw [reconcileLoop_cons_some key ge e gens p mods hl]
        by_cases hc : e.comment = ge.comment
        · refine ⟨e, ?_, hc⟩
          rw [if_pos hc, reconcileLoop_lookup_not_mem gens _ _ key hn.1]
          exact hl
        · refine ⟨⟨e.line, ge.comment⟩, ?_, rfl⟩
          rw [if_neg hc, reconcileLoop_lookup_not_mem gens _ _ key hn.1,
            lookupD_dictSet_self p key ⟨e.line, ge.comment⟩]
    · have hg' : lookupD gens k = some g := by simpa [lookupD, hk] using hg
      simp only [reconcileLoop]
      cases hl : lookupD p key with
      | none => exact ih _ _ k g hn.2 hg'
      | some e =>
        by_cases hc : e.comment = ge.comment
        · simp only [hc, if_pos rfl]
          exact ih _ _ k g hn.2 hg'
        · simp only [if_neg hc]
          exact ih _ _ k g hn.2 hg'

theorem reconcileLoop_noop :
    ∀ (gens p : ParsedDoc) (mods : List Modification),
      (∀ g ∈ gens, ∃ e, lookupD p g.1 = some e ∧ e.comment = g.2.comment) →
      reconcileLoop gens p mods = (p, mods) := by
  intro gens
  induction gens with
  | nil => intro p mods _; rfl
  | cons g0 gens ih =>
    intro p mods h
    obtain ⟨key, ge⟩ := g0
    obtain ⟨e, he, hc⟩ := h (key, ge) (by simp)
    simp only [reconcileLoop, he, hc, if_pos rfl]
    exact ih p mods (fun g hg => h g (by simp [hg]))

theorem parseLoop_good (rv : Bool) :
    ∀ (ls : List (List Char)) (p : ParsedDoc) (acc lk : List Char),
      (∀ l ∈ ls, SimpleLine l) → GoodDocP p → CommentOK acc →
      GoodDocP (parseLoop rv ls p acc lk).1 := by
  intro ls
  induction ls with
  | nil => intro p acc lk _ hp _; exact hp
  | cons l ls ih =>
    intro p acc lk hs hp hacc
    cases hm : matchLine l with
    | none =>
      have hacc' : CommentOK (acc ++ l) := by
        obtain ⟨lsc, rfl, hl⟩ := hacc
        refine ⟨lsc ++ [l], by simp, ?_⟩
        intro x hx
        rcases List.mem_append.mp hx with h | h
        · exact hl x h
        · simp at h
          subst h
          exact ⟨hm, hs _ (by simp)⟩
      simp only [parseLoop, hm]
      exact ih p (acc ++ l) lk (fun x hx => hs x (by simp [hx])) hp hacc'
    | some st =>
      simp only [parseLoop, hm]
      apply ih _ [] st.key (fun x hx => hs x (by simp [hx])) _ ⟨[], rfl, by simp⟩
      have hline : SimpleLine l := hs l (by simp)
      have hsound := matchLine_sound l st hm
      constructor
      · exact nodup_keys_dictSet p st.key _ hp.1
      · intro x hx
        rcases mem_dictSet p st.key _ x hx with h | h
        · exact hp.2 x h
        · rw [h]
          refine ⟨?_, ?_, hacc⟩
          · cases rv with
            | false => exact ⟨st, hm, rfl⟩
            | true =>
              exact ⟨strippedStmt st, by simp [matchLine_stripped l st hm], rfl⟩
          · cases rv with
            | false => exact hline
            | true =>
              show SimpleLine st.stripped
              exact simpleLine_stripped st (by rw [hsound.1]; exact hline)

theorem parse_good (content : List Char) (rv : Bool) (d : ParsedDoc)
    (hs : simpleTextP content)
    (h : parse_strings_file_content content rv = .ok d) : GoodDocP d := by
  have hg := parseLoop_good rv (splitlines content) [] [] []
    (simpleText_lines content hs) ⟨by simp [keysOf], by simp⟩ ⟨[], rfl, by simp⟩
  simp only [parse_strings_file_content] at h
  split at h
  · injection h with h
    rw [← h]
    exact hg
  · exact absurd h (by simp)

theorem parseLoop_skip (rv : Bool) :
    ∀ (lsc ls₂ : List (List Char)) (p : ParsedDoc) (acc lk : List Char),
      (∀ l ∈ lsc, matchLine l = none) →
      parseLoop rv (lsc ++ ls₂) p acc lk =
        parseLoop rv ls₂ p (acc ++ lsc.flatten) lk := by
  intro lsc
  induction lsc with
  | nil => intro ls₂ p acc lk _; simp
  | cons l lsc ih =>
    intro ls₂ p acc lk h
    have hl : matchLine l = none := h l (by simp)
    rw [List.cons_append]
    rw [show parseLoop rv (l :: (lsc ++ ls₂)) p acc lk
        = parseLoop rv (lsc ++ ls₂) p (acc ++ l) lk from by simp [parseLoop, hl]]
    rw [ih ls₂ p (acc ++ l) lk (fun x hx => h x (by simp [hx]))]
    simp [List.append_assoc]

theorem parseLoop_reparse :
    ∀ (d p : ParsedDoc) (lk : List Char),
      (∀ x ∈ d, GoodE x.1 x.2) → (keysOf d).Nodup →
      (∀ k ∈ keysOf d, lookupD p k = none) →
      ∃ lk₂, parseLoop false (splitlines (serializeDoc d)) p [] lk =
        (p ++ d, [], lk₂) := by
  intro d
  induction d with
  | nil =>
    intro p lk _ _ _
    exact ⟨lk, by simp [serializeDoc, splitlines, parseLoop]⟩
  | cons x d ih =>
    intro p lk hg hn hf
    obtain ⟨k, e⟩ := x
    have hgx : GoodE k e := hg (k, e) (by simp)
    obtain ⟨⟨st, hst, hkey⟩, hsl, ⟨lsc, hcom, hlsc⟩⟩ := hgx
    have hser : serializeDoc ((k, e) :: d) =
        e.comment ++ (e.line ++ serializeDoc d) := by
      simp [serializeDoc, List.append_assoc]
    rw [hser, hcom,
      splitlines_flatten_simple lsc (fun l hl => (hlsc l hl).2) (e.line ++ serializeDoc d),
      splitlines_append e.line (simpleLine_getLast _ hsl) (serializeDoc d),
      splitlines_simpleLine e.line hsl,
      parseLoop_skip false lsc _ p [] lk (fun l hl => (hlsc l hl).1)]
    simp only [List.nil_append, List.cons_append, List.singleton_append, parseLoop, hst]
    simp only [List.append_eq, List.nil_append, Bool.false_eq_true, if_false]
    rw [keysOf, List.map_cons, List.nodup_cons] at hn
    have hfresh : lookupD p k = none := hf k (by simp [keysOf])
    rw [hkey, dictSet_of_not_mem p k _ ((lookupD_eq_none p k).mp hfresh)]
    have he : (⟨e.line, lsc.flatten⟩ : Entry) = e := by rw [← hcom]
    rw [he]
    obtain ⟨lk₂, hrec⟩ := ih (p ++ [(k, e)]) k
      (fun x hx => hg x (by simp [hx]))
      hn.2
      (by
        intro k' hk'
        have hne : k ≠ k' := by
          intro hkk; subst hkk; exact hn.1 hk'
        rw [lookupD_append_of_none p [(k, e)] k'
          (hf k' (by rw [keysOf, List.map_cons]; exact List.mem_cons.mpr (Or.inr hk')))]
        simp [lookupD, hne])
    refine ⟨lk₂, ?_⟩
    rw [hrec]
    simp

theorem reparse_ok (d : ParsedDoc) (hg : ∀ x ∈ d, GoodE x.1 x.2)
    (hn : (keysOf d).Nodup) :
    parse_strings_file_content (serializeDoc d) false = .ok d := by
  obtain ⟨lk₂, h⟩ := parseLoop_reparse d [] [] hg hn (fun k _ => rfl)
  simp only [parse_strings_file_content, h]
  simp

theorem trailing_no_match :
    ∀ ls : List (List Char), anyMatch ls = false →
      trailingOfLines ls = ls.flatten := by
  intro ls
  induction ls with
  | nil => intro _; rfl
  | cons l ls ih =>
    intro h
    simp only [anyMatch, List.any_cons, Bool.or_eq_false_iff] at h
    simp only [trailingOfLines]
    rw [if_neg (by simp [anyMatch, h.2])]
    cases hm : matchLine l with
    | some st =>
      have := h.1
      rw [hm] at this
      simp at this
    | none => simp

theorem lastKey_no_match :
    ∀ ls : List (List Char), anyMatch ls = false →
      lastKeyOfLines ls = [] := by
  intro ls
  induction ls with
  | nil => intro _; rfl
  | cons l ls ih =>
    intro h
    simp only [anyMatch, List.any_cons, Bool.or_eq_false_iff] at h
    simp only [lastKeyOfLines]
    rw [if_neg (by simp [anyMatch, h.2])]
    cases hm : matchLine l with
    | some st =>
      have := h.1
      rw [hm] at this
      simp at this
    | none => simp

theorem parseLoop_post (rv : Bool) :
    ∀ (ls : List (List Char)) (p : ParsedDoc) (acc lk : List Char),
      (parseLoop rv ls p acc lk).2.1 =
        (if anyMatch ls then [] else acc) ++ trailingOfLines ls ∧
      (parseLoop rv ls p acc lk).2.2 =
        (if anyMatch ls then lastKeyOfLines ls else lk) := by
  intro ls
  induction ls with
  | nil =>
    intro p acc lk
    simp [parseLoop, anyMatch, trailingOfLines, lastKeyOfLines]
  | cons l ls ih =>
    intro p acc lk
    cases hm : matchLine l with
    | some st =>
      have hany : anyMatch (l :: ls) = true := by simp [anyMatch, hm]
      simp only [parseLoop, hm]
      obtain ⟨ih1, ih2⟩ :=
        ih (dictSet p st.key ⟨if rv = true then st.stripped else l, acc⟩) [] st.key
      rw [hany, ih1, ih2]
      by_cases h2 : anyMatch ls = true
      · constructor
        · simp [trailingOfLines, h2]
        · simp [lastKeyOfLines, h2]
      · have h2' : anyMatch ls = false := by simpa using h2
        constructor
        · simp [trailingOfLines, h2', hm, trailing_no_match ls h2']
        · simp [lastKeyOfLines, h2', hm]
    | none =>
      have hany : anyMatch (l :: ls) = anyMatch ls := by simp [anyMatch, hm]
      simp only [parseLoop, hm]
      obtain ⟨ih1, ih2⟩ := ih p (acc ++ l) lk
      rw [hany, ih1, ih2]
      by_cases h2 : anyMatch ls = true
      · constructor
        · simp [trailingOfLines, h2]
        · simp [lastKeyOfLines, h2]
      · have h2' : anyMatch ls = false := by simpa using h2
        constructor
        · simp [trailingOfLines, h2', hm, trailing_no_match ls h2', List.append_assoc]
        · simp [lastKeyOfLines, h2', hm]

theorem parse_eq (content : List Char) (rv : Bool) :
    parse_strings_file_content content rv =
      if (trailingText content).all isPySpace
      then .ok (parseLoop rv (splitlines content) [] [] []).1
      else .error (.trailingContent (lastSeenKey content)) := by
  obtain ⟨h1, h2⟩ := parseLoop_post rv (splitlines content) [] [] []
  have hp : (parseLoop rv (splitlines content) [] [] []).2.1 = trailingText content := by
    rw [h1, trailingText]
    cases hany : anyMatch (splitlines content) <;> simp
  have hk : (parseLoop rv (splitlines content) [] [] []).2.2 = lastSeenKey content := by
    rw [h2, lastSeenKey]
    cases hany : anyMatch (splitlines content) with
    | true => simp
    | false => simp [lastKey_no_match _ hany]
  simp only [parse_strings_file_content]
  rw [hp, hk]

theorem serializeDoc_append (a b : ParsedDoc) :
    serializeDoc (a ++ b) = serializeDoc a ++ serializeDoc b := by
  simp [serializeDoc]

theorem parseLoop_flatten :
    ∀ (ls : List (List Char)) (p : ParsedDoc) (acc lk : List Char),
      (matchedKeysOfLines ls).Nodup →
      (∀ k ∈ matchedKeysOfLines ls, lookupD p k = none) →
      serializeDoc (parseLoop false ls p acc lk).1 ++
          (parseLoop false ls p acc lk).2.1 =
        serializeDoc p ++ acc ++ ls.flatten := by
  intro ls
  induction ls with
  | nil => intro p acc lk _ _; simp [parseLoop]
  | cons l ls ih =>
    intro p acc lk hn hf
    cases hm : matchLine l with
    | some st =>
      have hkeys : matchedKeysOfLines (l :: ls) = st.key :: matchedKeysOfLines ls := by
        simp [matchedKeysOfLines, hm]
      rw [hkeys] at hn hf
      rw [List.nodup_cons] at hn
      have hfresh : lookupD p st.key = none := hf st.key (by simp)
      simp only [parseLoop, hm]
      simp only [Bool.false_eq_true, if_false]
      have hf' : ∀ k ∈ matchedKeysOfLines ls,
          lookupD (dictSet p st.key ⟨l, acc⟩) k = none := by
        intro k hk
        have hne : k ≠ st.key := fun hkk => hn.1 (hkk ▸ hk)
        rw [lookupD_dictSet_ne p st.key k _ hne]
        exact hf k (by simp [hk])
      rw [ih (dictSet p st.key ⟨l, acc⟩) [] st.key hn.2 hf']
      rw [dictSet_of_not_mem p st.key _ ((lookupD_eq_none p st.key).mp hfresh),
        serializeDoc_append]
      simp [serializeDoc, List.append_assoc]
    | none =>
      simp only [parseLoop, hm]
      rw [ih p (acc ++ l) lk (by simpa [matchedKeysOfLines, hm] using hn)
        (by intro k hk; exact hf k (by simpa [matchedKeysOfLines, hm] using hk))]
      simp [List.append_assoc]

theorem parse_serialize (content : List Char) (d : ParsedDoc)
    (h : parse_strings_file_content content false = .ok d)
    (hn : (matchedKeysL content).Nodup)
    (ht : trailingText content = []) :
    serializeDoc d = content := by
  obtain ⟨h1, _⟩ := parseLoop_post false (splitlines content) [] [] []
  have hpost : (parseLoop false (splitlines content) [] [] []).2.1 =
      trailingText content := by
    rw [h1, trailingText]
    cases hany : anyMatch (splitlines content) <;> simp
  have hflat := parseLoop_flatten (splitlines content) [] [] [] hn (fun k _ => rfl)
  simp only [parse_strings_file_content] at h
  split at h
  · injection h with h
    rw [← h]
    rw [hpost, ht] at hflat
    simpa [serializeDoc, flatten_splitlines] using hflat
  · exact absurd h (by simp)

theorem update_eq (content generatedContent : List Char) (pt pr d : ParsedDoc)
    (mods : List Modification)
    (hpt : parse_strings_file_content content false = .ok pt)
    (hpr : parse_strings_file_content generatedContent true = .ok pr)
    (hrec : reconcileLoop pr pt [] = (d, mods)) :
    update_strings_file_content content generatedContent =
      if hasCorruption d then .error .corruption
      else
        .ok ⟨attachKeys d (keysOf pr ++ (keysOf d).filter
            (fun k => !(decide (k ∈ keysOf pr)))), mods, keysOf d,
          keysOf pr ++ (keysOf d).filter (fun k => !(decide (k ∈ keysOf pr)))⟩ := by
  simp only [update_strings_file_content, hpt, hpr, hrec]

theorem update_ok_inv (content generatedContent : List Char) (r : UpdateResult)
    (h : update_strings_file_content content generatedContent = .ok r) :
    ∃ pt pr d mods,
      parse_strings_file_content content false = .ok pt ∧
      parse_strings_file_content generatedContent true = .ok pr ∧
      reconcileLoop pr pt [] = (d, mods) ∧
      hasCorruption d = false ∧
      r = ⟨attachKeys d (keysOf pr ++ (keysOf d).filter
            (fun k => !(decide (k ∈ keysOf pr)))), mods, keysOf d,
          keysOf pr ++ (keysOf d).filter (fun k => !(decide (k ∈ keysOf pr)))⟩ := by
  simp only [update_strings_file_content] at h
  split at h
  · exact absurd h (by simp)
  · rename_i pt hpt
    split at h
    · exact absurd h (by simp)
    · rename_i pr hpr
      split at h
      · exact absurd h (by simp)
      · rename_i hcor
        injection h with h
        refine ⟨pt, pr, (reconcileLoop pr pt []).1, (reconcileLoop pr pt []).2,
          hpt, hpr, rfl, by simpa using hcor, h.symm⟩

theorem reconcileLoop_good :
    ∀ (gens p : ParsedDoc) (mods : List Modification),
      GoodDocP p → (∀ x ∈ gens, GoodE x.1 x.2) →
      GoodDocP (reconcileLoop gens p mods).1 := by
  intro gens
  induction gens with
  | nil => intro p mods hp _; exact hp
  | cons g0 gens ih =>
    intro p mods hp hg
    obtain ⟨key, ge⟩ := g0
    have hge : GoodE key ge := hg (key, ge) (by simp)
    have hgt : ∀ x ∈ gens, GoodE x.1 x.2 := fun x hx => hg x (by simp [hx])
    cases hl : lookupD p key with
    | none =>
      rw [reconcileLoop_cons_none key ge gens p mods hl]
      apply ih _ _ _ hgt
      refine ⟨nodup_keys_dictSet p key ge hp.1, ?_⟩
      intro x hx
      rcases mem_dictSet p key ge x hx with h | h
      · exact hp.2 x h
      · rw [h]; exact hge
    | some e =>
      rw [reconcileLoop_cons_some key ge e gens p mods hl]
      by_cases hc : e.comment = ge.comment
      · rw [if_pos hc]
        exact ih p mods hp hgt
      · rw [if_neg hc]
        apply ih _ _ _ hgt
        refine ⟨nodup_keys_dictSet p key _ hp.1, ?_⟩
        intro x hx
        rcases mem_dictSet p key _ x hx with h | h
        · exact hp.2 x h
        · rw [h]
          have hpe := hp.2 (key, e) (lookupD_mem p key e hl)
          exact ⟨hpe.1, hpe.2.1, hge.2.2⟩

theorem lookupD_isSome (d : ParsedDoc) (k : List Char) (h : k ∈ keysOf d) :
    ∃ e, lookupD d k = some e := by
  cases hl : lookupD d k with
  | none => exact absurd ((lookupD_eq_none d k).mp hl) (by simp [h])
  | some e => exact ⟨e, rfl⟩

theorem reorder_sub (d : ParsedDoc) (ks : List (List Char))
    (x : List Char × Entry) (h : x ∈ reorder d ks) : x ∈ d := by
  simp only [reorder, List.mem_filterMap] at h
  obtain ⟨k, _, he⟩ := h
  cases hl : lookupD d k with
  | none => rw [hl] at he; simp at he
  | some e =>
    rw [hl] at he
    simp at he
    rw [← he]
    exact lookupD_mem d k e hl

theorem reorder_keys (d : ParsedDoc) :
    ∀ ks : List (List Char), (∀ k ∈ ks, k ∈ keysOf d) →
      keysOf (reorder d ks) = ks := by
  intro ks
  induction ks with
  | nil => intro _; rfl
  | cons k ks ih =>
    intro h
    obtain ⟨e, he⟩ := lookupD_isSome d k (h k (by simp))
    have ihr := ih (fun j hj => h j (by simp [hj]))
    simp only [reorder, keysOf] at ihr ⊢
    simp [List.filterMap_cons, he, ihr]

theorem lookupD_reorder (d : ParsedDoc) :
    ∀ ks : List (List Char), ks.Nodup → (∀ j ∈ ks, j ∈ keysOf d) →
      ∀ k ∈ ks, lookupD (reorder d ks) k = lookupD d k := by
  intro ks
  induction ks with
  | nil => intro _ _ k hk; simp at hk
  | cons j ks ih =>
    intro hn hsub k hk
    rw [List.nodup_cons] at hn
    obtain ⟨ej, hej⟩ := lookupD_isSome d j (hsub j (by simp))
    have hre : reorder d (j :: ks) = (j, ej) :: reorder d ks := by
      simp [reorder, List.filterMap_cons, hej]
    rw [hre]
    rcases List.mem_cons.mp hk with rfl | hk
    · simp [lookupD, hej]
    · have hne : k ≠ j := fun hkk => hn.1 (hkk ▸ hk)
      have hjk : j ≠ k := fun hh => hne hh.symm
      simp only [lookupD, if_neg hjk]
      exact ih hn.2 (fun x hx => hsub x (by simp [hx])) k hk

theorem attachKeys_eq_serialize (d : ParsedDoc) :
    ∀ ks : List (List Char), attachKeys d ks = serializeDoc (reorder d ks) := by
  intro ks
  induction ks with
  | nil => rfl
  | cons k ks ih =>
    cases hl : lookupD d k with
    | some e =>
      have hre : reorder d (k :: ks) = (k, e) :: reorder d ks := by
        simp [reorder, List.filterMap_cons, hl]
      rw [hre]
      simp only [attachKeys, hl]
      rw [ih]
      simp [serializeDoc, List.append_assoc]
    | none =>
      have hre : reorder d (k :: ks) = reorder d ks := by
        simp [reorder, List.filterMap_cons, hl]
      rw [hre]
      simp only [attachKeys, hl]
      rw [ih]
      simp

theorem attachKeys_congr (d d₂ : ParsedDoc) :
    ∀ ks : List (List Char), (∀ k ∈ ks, lookupD d k = lookupD d₂ k) →
      attachKeys d ks = attachKeys d₂ ks := by
  intro ks
  induction ks with
  | nil => intro _; rfl
  | cons k ks ih =>
    intro h
    simp only [attachKeys, h k (by simp)]
    rw [ih (fun j hj => h j (by simp [hj]))]

theorem hasCorruption_reorder_false (d : ParsedDoc) (ks : List (List Char))
    (h : hasCorruption d = false) : hasCorruption (reorder d ks) = false := by
  cases hc2 : hasCorruption (reorder d ks) with
  | false => rfl
  | true =>
    exfalso
    simp only [hasCorruption, List.any_eq_true] at hc2
    obtain ⟨le, hle, ke, hke, hsub⟩ := hc2
    have : hasCorruption d = true := by
      simp only [hasCorruption, List.any_eq_true]
      exact ⟨le, reorder_sub d ks le hle, ke, reorder_sub d ks ke hke, hsub⟩
    rw [h] at this
    exact Bool.noConfusion this

theorem parseLoop_nodup (rv : Bool) :
    ∀ (ls : List (List Char)) (p : ParsedDoc) (acc lk : List Char),
      (keysOf p).Nodup → (keysOf (parseLoop rv ls p acc lk).1).Nodup := by
  intro ls
  induction ls with
  | nil => intro p acc lk h; exact h
  | cons l ls ih =>
    intro p acc lk h
    cases hm : matchLine l with
    | some st =>
      simp only [parseLoop, hm]
      exact ih _ [] st.key (nodup_keys_dictSet p st.key _ h)
    | none =>
      simp only [parseLoop, hm]
      exact ih p (acc ++ l) lk h

theorem parse_nodup (content : List Char) (rv : Bool) (d : ParsedDoc)
    (h : parse_strings_file_content content rv = .ok d) : (keysOf d).Nodup := by
  simp only [parse_strings_file_content] at h
  split at h
  · injection h with h
    rw [← h]
    exact parseLoop_nodup rv (splitlines content) [] [] [] (by simp [keysOf])
  · exact absurd h (by simp)

/-- C1 counterexample: the claim as stated is false.  The text
`"A" = "1";\n\n` is accepted by `parse_strings_file_content` (its trailing
blank line is whitespace-only), but serializing the parse in its own order
drops the trailing blank line, so the output is not byte-identical to the
input. -/
theorem C1_counterexample :
    parse_strings_file_content exC1T false = .ok exC1D ∧
      serializeDoc exC1D ≠ exC1T :=
  ⟨by rfl, by decide⟩

/-- C1 (amended): for every text `T` accepted by `parse_strings_file_content`
in which no two matched statement lines share a key and the text accumulated
after the last matched statement line is empty (rather than merely
whitespace-only), concatenating each entry's comment then line in the
parse's own key order reproduces `T` byte for byte. -/
theorem C1_round_trip (T : List Char) (d : ParsedDoc)
    (h : parse_strings_file_content T false = .ok d)
    (hn : (matchedKeysL T).Nodup)
    (ht : trailingText T = []) :
    serializeDoc d = T :=
  parse_serialize T d h hn ht

/-- C1 witness: the amended round trip at a concrete two-line document. -/
theorem C1_round_trip_witness :
    parse_strings_file_content exC1wT false = .ok exC1wD ∧
      (matchedKeysL exC1wT).Nodup ∧ trailingText exC1wT = [] ∧
      serializeDoc exC1wD = exC1wT :=
  ⟨by rfl, by decide, by rfl,
    C1_round_trip exC1wT exC1wD (by rfl) (by decide) (by rfl)⟩

/-- C2: for a key present in both the target parse and the reference parse,
reconciliation leaves the stored statement line byte-identical — the merged
entry for the key carries exactly the target entry's `line` (only the
comment may have been replaced, script.py lines 239-242). -/
theorem C2_value_preservation (pt pr : ParsedDoc) (k : List Char) (e : Entry)
    (h1 : lookupD pt k = some e) (h2 : k ∈ keysOf pr) :
    ∃ e₂, lookupD (reconcileLoop pr pt []).1 k = some e₂ ∧
      e₂.line = e.line :=
  reconcileLoop_line pr pt [] k e h1

/-- C2 witness: value preservation at a concrete shared key whose reference
comment differs. -/
theorem C2_value_preservation_witness :
    lookupD exC2pt exC2k = some exC2e ∧ exC2k ∈ keysOf exC2pr ∧
      ∃ e₂, lookupD (reconcileLoop exC2pr exC2pt []).1 exC2k = some e₂ ∧
        e₂.line = exC2e.line :=
  ⟨by rfl, by decide,
    C2_value_preservation exC2pt exC2pr exC2k exC2e (by rfl) (by decide)⟩

/-- C3: the merged key order returned by `update_strings_file_content`
equals the reference key order followed by the superfluous keys (keys of the
target parse absent from the reference parse) in their original target
relative order. -/
theorem C3_key_order (T R : List Char) (r : UpdateResult) (pt pr : ParsedDoc)
    (h : update_strings_file_content T R = .ok r)
    (hpt : parse_strings_file_content T false = .ok pt)
    (hpr : parse_strings_file_content R true = .ok pr) :
    r.orderAfter =
      keysOf pr ++ (keysOf pt).filter (fun k => !(decide (k ∈ keysOf pr))) := by
  obtain ⟨pt', pr', d, mods, hpt', hpr', hrec, hcor, hr⟩ := update_ok_inv T R r h
  rw [hpt] at hpt'
  injection hpt' with hpteq
  subst hpteq
  rw [hpr] at hpr'
  injection hpr' with hpreq
  subst hpreq
  have hkeys := reconcileLoop_keys pr pt []
  rw [hrec] at hkeys
  obtain ⟨app, happ, hsub⟩ := hkeys
  rw [hr]
  show keysOf pr ++ (keysOf d).filter (fun k => !(decide (k ∈ keysOf pr))) =
    keysOf pr ++ (keysOf pt).filter (fun k => !(decide (k ∈ keysOf pr)))
  congr 1
  rw [happ, List.filter_append]
  have h1 : app.filter (fun k => !(decide (k ∈ keysOf pr))) = [] := by
    rw [List.filter_eq_nil_iff]
    intro a ha
    simp [hsub a ha]
  rw [h1]
  simp

/-- C3 witness: key order at a concrete run with one shared and one
superfluous key. -/
theorem C3_key_order_witness :
    update_strings_file_content exC3T exC3R = .ok exC3r ∧
      parse_strings_file_content exC3T false = .ok exC3pt ∧
      parse_strings_file_content exC3R true = .ok exC3pr ∧
      exC3r.orderAfter = keysOf exC3pr ++
        (keysOf exC3pt).filter (fun k => !(decide (k ∈ keysOf exC3pr))) :=
  ⟨by rfl, by rfl, by rfl,
    C3_key_order exC3T exC3R exC3r exC3pt exC3pr (by rfl) (by rfl) (by rfl)⟩

/-- C5: a key present in the reference parse but absent from the target
parse is inserted into the merged parse with the reference entry (its
comment and value-stripped line) verbatim, and an Insert modification whose
payload is that comment concatenated with that line is recorded. -/
theorem C5_insertion (T R : List Char) (pt pr : ParsedDoc)
    (k : List Char) (g : Entry)
    (hpt : parse_strings_file_content T false = .ok pt)
    (hpr : parse_strings_file_content R true = .ok pr)
    (h1 : lookupD pt k = none) (h2 : lookupD pr k = some g) :
    lookupD (reconcileLoop pr pt []).1 k = some g ∧
      Modification.insert k (g.comment ++ g.line) ∈ (reconcileLoop pr pt []).2 :=
  reconcileLoop_insert pr pt [] k g (parse_nodup R true pr hpr) h1 h2

/-- C5 witness: insertion of a concrete missing key. -/
theorem C5_insertion_witness :
    parse_strings_file_content exC5T false = .ok exC5pt ∧
      parse_strings_file_content exC5R true = .ok exC5pr ∧
      lookupD exC5pt ['A'] = none ∧ lookupD exC5pr ['A'] = some exC5g ∧
      lookupD (reconcileLoop exC5pr exC5pt []).1 ['A'] = some exC5g ∧
      Modification.insert ['A'] (exC5g.comment ++ exC5g.line) ∈
        (reconcileLoop exC5pr exC5pt []).2 :=
  ⟨by rfl, by rfl, by rfl, by rfl,
    (C5_insertion exC5T exC5R exC5pt exC5pr ['A'] exC5g
      (by rfl) (by rfl) (by rfl) (by rfl)).1,
    (C5_insertion exC5T exC5R exC5pt exC5pr ['A'] exC5g
      (by rfl) (by rfl) (by rfl) (by rfl)).2⟩

/-- C6: if the text accumulated after the last matched statement line
contains a non-whitespace character, parsing fails with a trailing-content
error naming the last seen key; if that text is empty or whitespace-only,
parsing succeeds. -/
theorem C6_trailing_content (content : List Char) (rv : Bool) :
    ((trailingText content).all isPySpace = false →
      parse_strings_file_content content rv =
        .error (.trailingContent (lastSeenKey content))) ∧
    ((trailingText content).all isPySpace = true →
      ∃ d, parse_strings_file_content content rv = .ok d) := by
  constructor
  · intro h
    rw [parse_eq content rv, h]
    simp
  · intro h
    rw [parse_eq content rv, h]
    exact ⟨(parseLoop rv (splitlines content) [] [] []).1, by simp⟩

/-- C6 witness: a concrete document with text under the last key fails with
the trailing-content error carrying that key. -/
theorem C6_trailing_content_witness :
    (trailingText exC6T).all isPySpace = false ∧
      parse_strings_file_content exC6T false =
        .error (.trailingContent (lastSeenKey exC6T)) ∧
      lastSeenKey exC6T = ['A'] :=
  ⟨by rfl, (C6_trailing_content exC6T false).1 (by rfl), by rfl⟩

/-- C7: if in the merged document some key's literal text occurs verbatim
inside a different key's comment, `update_strings_file_content` fails with
the corruption error and returns no merged output text. -/
theorem C7_corruption_guard (T R : List Char) (pt pr : ParsedDoc)
    (k j : List Char) (ek ej : Entry)
    (hpt : parse_strings_file_content T false = .ok pt)
    (hpr : parse_strings_file_content R true = .ok pr)
    (hk : (k, ek) ∈ (reconcileLoop pr pt []).1)
    (hj : (j, ej) ∈ (reconcileLoop pr pt []).1)
    (hne : j ≠ k)
    (hsub : isSubOf j ek.comment = true) :
    update_strings_file_content T R = .error .corruption := by
  rw [update_eq T R pt pr (reconcileLoop pr pt []).1 (reconcileLoop pr pt []).2
    hpt hpr rfl]
  have hc : hasCorruption (reconcileLoop pr pt []).1 = true := by
    simp only [hasCorruption, List.any_eq_true]
    exact ⟨(k, ek), hk, (j, ej), hj, hsub⟩
  rw [if_pos hc]

/-- C7 witness: a concrete target whose comment for key A contains the
text of key B (with an empty reference document) fails with corruption. -/
theorem C7_corruption_guard_witness :
    parse_strings_file_content exC7T false = .ok exC7pt ∧
      (['A'], exC7eA) ∈ (reconcileLoop ([] : ParsedDoc) exC7pt []).1 ∧
      (['B'], exC7eB) ∈ (reconcileLoop ([] : ParsedDoc) exC7pt []).1 ∧
      isSubOf ['B'] exC7eA.comment = true ∧
      update_strings_file_content exC7T [] = .error .corruption :=
  ⟨by rfl, by decide, by decide, by rfl,
    C7_corruption_guard exC7T [] exC7pt [] ['A'] ['B'] exC7eA exC7eB
      (by rfl) (by rfl) (by decide) (by decide) (by decide) (by rfl)⟩

/-- C8 (code bug): the live line-based parser has no duplicate-key check —
the duplicate assert sits in the unreachable match-based branch after the
`return` at script.py line 351.  On a document declaring the same key
twice, `parse_strings_file_content` returns successfully with a single
entry holding the last occurrence's line at the first occurrence's
position, instead of failing with a DuplicateKeyError. -/
theorem C8_duplicate_key_eval :
    parse_strings_file_content exC8T false = .ok exC8D :=
  by rfl

/-- C9 (code bug): `splitlines` treats U+2028 LINE SEPARATOR as a line
boundary (the code's own comment at script.py line 315 records that
`splitlines` "didn't work" for exactly this reason, yet line 327 still uses
it).  A well-formed statement whose value contains U+2028 is fragmented
into two non-matching lines, so parsing fails with a trailing-content
error instead of keeping the entry intact. -/
theorem C9_line_separator_eval :
    parse_strings_file_content exC9T false = .error (.trailingContent []) ∧
      splitlines exC9T ≠ [exC9T] :=
  ⟨by rfl, by decide⟩

/-- C10: the corruption scan ranges over all ordered key pairs including a
key paired with itself, so a key whose own literal text occurs inside its
own comment also makes `update_strings_file_content` fail with the
corruption error. -/
theorem C10_self_key_corruption (T R : List Char) (pt pr : ParsedDoc)
    (k : List Char) (ek : Entry)
    (hpt : parse_strings_file_content T false = .ok pt)
    (hpr : parse_strings_file_content R true = .ok pr)
    (hk : (k, ek) ∈ (reconcileLoop pr pt []).1)
    (hsub : isSubOf k ek.comment = true) :
    update_strings_file_content T R = .error .corruption := by
  rw [update_eq T R pt pr (reconcileLoop pr pt []).1 (reconcileLoop pr pt []).2
    hpt hpr rfl]
  have hc : hasCorruption (reconcileLoop pr pt []).1 = true := by
    simp only [hasCorruption, List.any_eq_true]
    exact ⟨(k, ek), hk, (k, ek), hk, hsub⟩
  rw [if_pos hc]

/-- C10 witness: a concrete target whose only comment contains its own
key's text fails with corruption. -/
theorem C10_self_key_corruption_witness :
    parse_strings_file_content exC10T false = .ok exC10pt ∧
      (['A'], exC10e) ∈ (reconcileLoop ([] : ParsedDoc) exC10pt []).1 ∧
      isSubOf ['A'] exC10e.comment = true ∧
      update_strings_file_content exC10T [] = .error .corruption :=
  ⟨by rfl, by decide, by rfl,
    C10_self_key_corruption exC10T [] exC10pt [] ['A'] exC10e
      (by rfl) (by rfl) (by decide) (by decide)⟩

/-- C4 counterexample: the claim as stated is false.  With a target whose
final statement line has no line terminator and a reference that reverses
the key order, the first run succeeds (with no modifications) but rewrites
the two statements onto one physical line; the second run on that output
fails with a trailing-content error instead of producing an empty
modification list. -/
theorem C4_counterexample :
    update_strings_file_content exC4T exC4R = .ok exC4res ∧
      update_strings_file_content exC4res.newContent exC4R =
        .error (.trailingContent []) :=
  ⟨by rfl, by rfl⟩

/-- C4 (amended): provided the target and reference texts use `\n` as their
only line-boundary character and end with a newline (or are empty), a
second run of `update_strings_file_content` on the output of a successful
first run with the same reference succeeds, leaves the text unchanged,
records zero modifications, and reports the same key order as the first
run's final order. -/
theorem C4_idempotence (T R : List Char) (r : UpdateResult)
    (hT : simpleTextP T) (hR : simpleTextP R)
    (h : update_strings_file_content T R = .ok r) :
    update_strings_file_content r.newContent R =
      .ok ⟨r.newContent, [], r.orderAfter, r.orderAfter⟩ := by
  obtain ⟨pt, pr, d, mods, hpt, hpr, hrec, hcor, hr⟩ := update_ok_inv T R r h
  have hgpt : GoodDocP pt := parse_good T false pt hT hpt
  have hgpr : GoodDocP pr := parse_good R true pr hR hpr
  have hgd : GoodDocP d := by
    have hh := reconcileLoop_good pr pt [] hgpt hgpr.2
    rwa [hrec] at hh
  have hprsub : ∀ k ∈ keysOf pr, k ∈ keysOf d := by
    intro k hk
    obtain ⟨g, hg⟩ := lookupD_isSome pr k hk
    have hcc := reconcileLoop_comment pr pt [] k g hgpr.1 hg
    rw [hrec] at hcc
    obtain ⟨e, he, _⟩ := hcc
    exact mem_keysOf_of_lookupD d k e he
  have hnksub : ∀ k ∈ keysOf pr ++
      (keysOf d).filter (fun k => !(decide (k ∈ keysOf pr))), k ∈ keysOf d := by
    intro k hk
    rcases List.mem_append.mp hk with hk | hk
    · exact hprsub k hk
    · exact (List.mem_filter.mp hk).1
  have hnknodup : (keysOf pr ++
      (keysOf d).filter (fun k => !(decide (k ∈ keysOf pr)))).Nodup := by
    refine List.Nodup.append hgpr.1 (List.Nodup.filter _ hgd.1) ?_
    intro x hx hx2
    have hxf := (List.mem_filter.mp hx2).2
    simp at hxf
    exact hxf hx
  have hd2keys : keysOf (reorder d (keysOf pr ++
      (keysOf d).filter (fun k => !(decide (k ∈ keysOf pr))))) =
      keysOf pr ++ (keysOf d).filter (fun k => !(decide (k ∈ keysOf pr))) :=
    reorder_keys d _ hnksub
  have hd2look : ∀ k ∈ keysOf pr ++
      (keysOf d).filter (fun k => !(decide (k ∈ keysOf pr))),
      lookupD (reorder d (keysOf pr ++
        (keysOf d).filter (fun k => !(decide (k ∈ keysOf pr))))) k =
        lookupD d k :=
    lookupD_reorder d _ hnknodup hnksub
  have hgd2 : GoodDocP (reorder d (keysOf pr ++
      (keysOf d).filter (fun k => !(decide (k ∈ keysOf pr))))) := by
    constructor
    · rw [hd2keys]
      exact hnknodup
    · intro x hx
      exact hgd.2 x (reorder_sub d _ x hx)
  have hncr : r.newContent = serializeDoc (reorder d (keysOf pr ++
      (keysOf d).filter (fun k => !(decide (k ∈ keysOf pr))))) := by
    rw [hr]
    show attachKeys d (keysOf pr ++
      (keysOf d).filter (fun k => !(decide (k ∈ keysOf pr)))) = _
    exact attachKeys_eq_serialize d _
  have hparse2 : parse_strings_file_content r.newContent false =
      .ok (reorder d (keysOf pr ++
        (keysOf d).filter (fun k => !(decide (k ∈ keysOf pr))))) := by
    rw [hncr]
    exact reparse_ok _ hgd2.2 hgd2.1
  have hrec2 : reconcileLoop pr (reorder d (keysOf pr ++
      (keysOf d).filter (fun k => !(decide (k ∈ keysOf pr))))) [] =
      (reorder d (keysOf pr ++
        (keysOf d).filter (fun k => !(decide (k ∈ keysOf pr)))), []) := by
    apply reconcileLoop_noop
    intro g hg
    have hmem : (g.1, g.2) ∈ pr := by
      cases g
      exact hg
    have hlg : lookupD pr g.1 = some g.2 :=
      lookupD_of_mem_nodup pr g.1 g.2 hgpr.1 hmem
    have hcc := reconcileLoop_comment pr pt [] g.1 g.2 hgpr.1 hlg
    rw [hrec] at hcc
    obtain ⟨e, he, hec⟩ := hcc
    have hgmem : g.1 ∈ keysOf pr ++
        (keysOf d).filter (fun k => !(decide (k ∈ keysOf pr))) :=
      List.mem_append.mpr (Or.inl (mem_keysOf_of_lookupD pr g.1 g.2 hlg))
    refine ⟨e, ?_, hec⟩
    rw [hd2look g.1 hgmem]
    exact he
  have hcor2 : hasCorruption (reorder d (keysOf pr ++
      (keysOf d).filter (fun k => !(decide (k ∈ keysOf pr))))) = false :=
    hasCorruption_reorder_false d _ hcor
  have hkeys2 : keysOf pr ++ (keysOf (reorder d (keysOf pr ++
      (keysOf d).filter (fun k => !(decide (k ∈ keysOf pr)))))).filter
        (fun k => !(decide (k ∈ keysOf pr))) =
      keysOf pr ++ (keysOf d).filter (fun k => !(decide (k ∈ keysOf pr))) := by
    rw [hd2keys, List.filter_append]
    have h1 : (keysOf pr).filter (fun k => !(decide (k ∈ keysOf pr))) = [] := by
      rw [List.filter_eq_nil_iff]
      intro a ha
      simp [ha]
    have h2 : ((keysOf d).filter (fun k => !(decide (k ∈ keysOf pr)))).filter
        (fun k => !(decide (k ∈ keysOf pr))) =
        (keysOf d).filter (fun k => !(decide (k ∈ keysOf pr))) := by
      rw [List.filter_eq_self]
      intro a ha
      exact (List.mem_filter.mp ha).2
    rw [h1, h2]
    simp
  rw [update_eq r.newContent R
    (reorder d (keysOf pr ++ (keysOf d).filter (fun k => !(decide (k ∈ keysOf pr)))))
    pr
    (reorder d (keysOf pr ++ (keysOf d).filter (fun k => !(decide (k ∈ keysOf pr)))))
    [] hparse2 hpr hrec2]
  rw [if_neg (by simp [hcor2])]
  rw [hkeys2]
  rw [attachKeys_congr (reorder d (keysOf pr ++
      (keysOf d).filter (fun k => !(decide (k ∈ keysOf pr))))) d
    (keysOf pr ++ (keysOf d).filter (fun k => !(decide (k ∈ keysOf pr))))
    hd2look]
  rw [hd2keys, hr]

/-- C4 witness: the amended idempotence at a concrete newline-terminated
pair of documents with one insertion and one superfluous key. -/
theorem C4_idempotence_witness :
    simpleTextP exC4wT ∧ simpleTextP exC4wR ∧
      update_strings_file_content exC4wT exC4wR = .ok exC4wRes ∧
      update_strings_file_content exC4wRes.newContent exC4wR =
        .ok ⟨exC4wRes.newContent, [], exC4wRes.orderAfter, exC4wRes.orderAfter⟩ :=
  ⟨by decide, by decide, by rfl,
    C4_idempotence exC4wT exC4wR exC4wRes (by decide) (by decide) (by rfl)⟩

end StringsUpdate
